import Mathlib

/-!
Verification development for the ucoin core (src/main.rs).

The Rust source defines a DAG-ledger building block:
a `Transaction` payload (parents, sender, timestamp, amount, receiver),
a `SignedTransaction` (payload plus base64 signature), canonical
serialization via serde_json::to_string, content hashing via blake3 and
base64, signing and verification via an injected oqs signature scheme,
and a `WorldState` of wallets.

The embedding below mirrors the source: strings are Lean strings (lists
of unicode scalars), bytes are natural numbers, the external signature
scheme is a record of injected functions (as the Rust code receives an
injected oqs::sig::Sig), and the blake3 digest is an injected function.
Fallible operations that the Rust code unwraps are modelled with Option,
where none models a panic.
-/

namespace UCoin

/-- The transaction payload, mirroring struct Transaction in src/main.rs:
parents, sender, timestamp, amount, receiver, declared in that order
(the serde field order of the canonical serialization). -/
structure Transaction where
  parents : List String
  sender : String
  timestamp : Nat
  amount : Nat
  receiver : String
deriving Repr, DecidableEq

/-- A payload together with its base64-encoded signature, mirroring
struct SignedTransaction in src/main.rs (the serde(flatten) attribute is
commented out in the source, so the payload is a nested JSON object). -/
structure SignedTransaction where
  transaction : Transaction
  signature : String
deriving Repr, DecidableEq

/-- Lowercase hexadecimal digit, as used by serde_json for control-character
escapes. -/
def hexDig (d : Nat) : Char :=
  if d < 10 then Char.ofNat (48 + d) else Char.ofNat (87 + d)

/-- serde_json string escaping for one character: quote and backslash get a
backslash escape, control characters below 0x20 get their short escape when
one exists (\b \t \n \f \r) and a \u00XX escape otherwise, and every other
character is emitted unchanged. -/
def escapeChar (c : Char) : List Char :=
  if c = '"' then ['\\', '"']
  else if c = '\\' then ['\\', '\\']
  else if c.toNat < 32 then
    if c.toNat = 8 then ['\\', 'b']
    else if c.toNat = 9 then ['\\', 't']
    else if c.toNat = 10 then ['\\', 'n']
    else if c.toNat = 12 then ['\\', 'f']
    else if c.toNat = 13 then ['\\', 'r']
    else ['\\', 'u', '0', '0', hexDig (c.toNat / 16), hexDig (c.toNat % 16)]
  else [c]

/-- Escape every character of a string body. -/
def escapeString (cs : List Char) : List Char :=
  (cs.map escapeChar).flatten

/-- serde_json encoding of a string value: quote, escaped body, quote. -/
def encStr (s : String) : List Char :=
  '"' :: (escapeString s.data ++ ['"'])

/-- Decimal digit character. -/
def digitChar (d : Nat) : Char := Char.ofNat (48 + d)

/-- Decimal representation, most significant digit first; the fuel only
bounds the digit count and never runs out when it exceeds the number. -/
def natCharsAux : Nat → Nat → List Char
  | 0, _ => []
  | fuel + 1, n =>
    if n < 10 then [digitChar n]
    else natCharsAux fuel (n / 10) ++ [digitChar (n % 10)]

/-- Decimal representation of a natural number, most significant digit
first, as serde_json prints a u64. -/
def natChars (n : Nat) : List Char := natCharsAux (n + 1) n

/-- Comma-separated serde_json encodings of the elements of a string
array (the brackets are emitted by the caller). -/
def encStrListItems : List String → List Char
  | [] => []
  | [s] => encStr s
  | s :: rest => encStr s ++ (',' :: encStrListItems rest)

/-- Characters of a string literal. -/
def lit (s : String) : List Char := s.data

/-- Canonical serialization of a Transaction payload: the exact character
sequence produced by serde_json::to_string on struct Transaction, with
fields in declaration order and no whitespace. -/
def encodeTransactionChars (t : Transaction) : List Char :=
  lit ("\x7b\"parents\":[")
    ++ encStrListItems t.parents
    ++ (']' :: lit (",\"sender\":"))
    ++ encStr t.sender
    ++ lit (",\"timestamp\":")
    ++ natChars t.timestamp
    ++ (',' :: lit ("\"amount\":"))
    ++ natChars t.amount
    ++ (',' :: lit ("\"receiver\":"))
    ++ encStr t.receiver
    ++ lit ("\x7d")

/-- Canonical serialization of a SignedTransaction: the exact character
sequence produced by serde_json::to_string on struct SignedTransaction, a
nested transaction object followed by the signature string. -/
def encodeSignedTransactionChars (s : SignedTransaction) : List Char :=
  lit ("\x7b\"transaction\":")
    ++ encodeTransactionChars s.transaction
    ++ lit (",\"signature\":")
    ++ encStr s.signature
    ++ lit ("\x7d")

/-- UTF-8 bytes of one unicode scalar value, modelling str::as_bytes. -/
def utf8Char (c : Char) : List Nat :=
  let n := c.toNat
  if n < 128 then [n]
  else if n < 2048 then [192 + n / 64, 128 + n % 64]
  else if n < 65536 then [224 + n / 4096, 128 + n / 64 % 64, 128 + n % 64]
  else [240 + n / 262144, 128 + n / 4096 % 64, 128 + n / 64 % 64, 128 + n % 64]

/-- UTF-8 bytes of a character sequence, modelling String::as_bytes. -/
def utf8Bytes (cs : List Char) : List Nat :=
  (cs.map utf8Char).flatten

/-- Character of one 6-bit group in the standard base64 alphabet used by
base64ct::Base64. -/
def b64Char (n : Nat) : Char :=
  if n < 26 then Char.ofNat (65 + n)
  else if n < 52 then Char.ofNat (97 + (n - 26))
  else if n < 62 then Char.ofNat (48 + (n - 52))
  else if n = 62 then '+'
  else '/'

/-- Standard padded base64 encoding of a byte sequence, modelling
base64ct::Base64::encode_string. -/
def base64EncodeChars : List Nat → List Char
  | [] => []
  | [b1] => [b64Char (b1 / 4), b64Char (b1 % 4 * 16), '=', '=']
  | [b1, b2] => [b64Char (b1 / 4), b64Char (b1 % 4 * 16 + b2 / 16), b64Char (b2 % 16 * 4), '=']
  | b1 :: b2 :: b3 :: rest =>
    b64Char (b1 / 4) :: b64Char (b1 % 4 * 16 + b2 / 16)
      :: b64Char (b2 % 16 * 4 + b3 / 64) :: b64Char (b3 % 64)
      :: base64EncodeChars rest

/-- Value of one character of the standard base64 alphabet, none for a
character outside the alphabet. -/
def b64Val (c : Char) : Option Nat :=
  if 'A' ≤ c ∧ c ≤ 'Z' then some (c.toNat - 65)
  else if 'a' ≤ c ∧ c ≤ 'z' then some (c.toNat - 97 + 26)
  else if '0' ≤ c ∧ c ≤ '9' then some (c.toNat - 48 + 52)
  else if c = '+' then some 62
  else if c = '/' then some 63
  else none

/-- Strict canonical padded base64 decoding, modelling
base64ct::Base64::decode_vec: the length must be a multiple of four,
padding may appear only at the end, and unused trailing bits must be
zero; none models a decode error. -/
def base64DecodeChars : List Char → Option (List Nat)
  | [] => some []
  | [c1, c2, '=', '='] =>
    match b64Val c1, b64Val c2 with
    | some v1, some v2 =>
      if v2 % 16 = 0 then some [v1 * 4 + v2 / 16] else none
    | _, _ => none
  | [c1, c2, c3, '='] =>
    match b64Val c1, b64Val c2, b64Val c3 with
    | some v1, some v2, some v3 =>
      if v3 % 4 = 0 then some [v1 * 4 + v2 / 16, v2 % 16 * 16 + v3 / 4] else none
    | _, _, _ => none
  | c1 :: c2 :: c3 :: c4 :: rest =>
    match b64Val c1, b64Val c2, b64Val c3, b64Val c4 with
    | some v1, some v2, some v3, some v4 =>
      (base64DecodeChars rest).map
        (fun bs => (v1 * 4 + v2 / 16) :: (v2 % 16 * 16 + v3 / 4) :: (v3 % 4 * 64 + v4) :: bs)
    | _, _, _, _ => none
  | _ => none

/-- The injected post-quantum signature scheme, modelling the
oqs::sig::Sig instance the Rust functions receive by reference. Keys,
signatures and messages are byte sequences; fallible operations return
none on failure, and field verify models sig.verify(...).is_ok(). -/
structure Sig where
  signBytes : List Nat → List Nat → Option (List Nat)
  publicKeyFromBytes : List Nat → Option (List Nat)
  signatureFromBytes : List Nat → Option (List Nat)
  verifyBytes : List Nat → List Nat → List Nat → Bool

/-- Transaction::new from src/main.rs: parents become the content hashes
of the given signed transactions in order, sender and receiver are the
base64 encodings of the given public keys, the timestamp is the current
wall-clock milliseconds since the epoch truncated to u64 (the source
casts a u128 with as u64), and the amount is stored unchanged. The
wall clock and the blake3 digest are injected. -/
def Transaction.new (blake3 : List Nat → List Nat)
    (parents : List SignedTransaction) (pk : List Nat) (amount : Nat)
    (receiver : List Nat) (nowMillis : Nat) : Transaction :=
  { parents := parents.map (fun s =>
      String.mk (base64EncodeChars (blake3 (utf8Bytes (encodeSignedTransactionChars s)))))
  , sender := String.mk (base64EncodeChars pk)
  , timestamp := nowMillis % 2 ^ 64
  , amount := amount
  , receiver := String.mk (base64EncodeChars receiver) }

/-- serde_json::to_string on a Transaction as called in Transaction::sign
and SignedTransaction::verify: for this payload type (strings, string
lists and unsigned integers only) serialization always succeeds, so the
result is always some. -/
def serdeToStringTransaction (t : Transaction) : Option String :=
  some (String.mk (encodeTransactionChars t))

/-- serde_json::to_string on a SignedTransaction as called in
SignedTransaction::hash: always succeeds for this type. -/
def serdeToStringSigned (s : SignedTransaction) : Option String :=
  some (String.mk (encodeSignedTransactionChars s))

/-- Transaction::sign from src/main.rs: serialize the payload alone,
sign those bytes with the injected scheme and secret key, base64-encode
the raw signature, and wrap payload and signature; none models the
panic of the unwrap when the underlying signing operation fails. -/
def Transaction.sign (t : Transaction) (sig : Sig) (sk : List Nat) :
    Option SignedTransaction :=
  match sig.signBytes (utf8Bytes (encodeTransactionChars t)) sk with
  | none => none
  | some raw => some ⟨t, String.mk (base64EncodeChars raw)⟩

/-- SignedTransaction::hash from src/main.rs: serialize the whole signed
transaction (payload and signature), digest with the injected blake3,
and base64-encode the digest. -/
def SignedTransaction.hash (blake3 : List Nat → List Nat)
    (s : SignedTransaction) : String :=
  String.mk (base64EncodeChars (blake3 (utf8Bytes (encodeSignedTransactionChars s))))

/-- SignedTransaction::verify from src/main.rs: serialize the embedded
payload alone, base64-decode the sender into public-key bytes, parse
them, base64-decode the signature, parse it, and check the signature
over the payload bytes. Each of the four decode and parse steps is
unwrapped in the source, so a failure there is a panic, modelled as
none; some b is the boolean verification outcome. -/
def SignedTransaction.verify (s : SignedTransaction) (sig : Sig) : Option Bool :=
  match base64DecodeChars s.transaction.sender.data with
  | none => none
  | some pkBytes =>
    match sig.publicKeyFromBytes pkBytes with
    | none => none
    | some pk =>
      match base64DecodeChars s.signature.data with
      | none => none
      | some sgBytes =>
        match sig.signatureFromBytes sgBytes with
        | none => none
        | some sg =>
          some (sig.verifyBytes (utf8Bytes (encodeTransactionChars s.transaction)) sg pk)

/-- A wallet, mirroring struct Wallet in src/main.rs: a non-negative
balance and the set of content hashes already applied, the set kept as a
duplicate-free list. -/
structure Wallet where
  balance : Nat
  history : List String
deriving Repr, DecidableEq

/-- The ledger state, mirroring struct WorldState in src/main.rs: a map
from encoded public key to Wallet, kept as an association list. -/
structure WorldState where
  wallets : List (String × Wallet)
deriving Repr, DecidableEq

/-- First wallet stored under a key. -/
def lookupWallet : List (String × Wallet) → String → Option Wallet
  | [], _ => none
  | (k, w) :: rest, key => if k = key then some w else lookupWallet rest key

/-- Replace the first wallet stored under a key, appending a fresh entry
when the key is absent. -/
def setWallet : List (String × Wallet) → String → Wallet → List (String × Wallet)
  | [], key, w => [(key, w)]
  | (k, w0) :: rest, key, w =>
    if k = key then (key, w) :: rest else (k, w0) :: setWallet rest key w

/-- Set-insert of a hash into a wallet history. -/
def insertHash (h : String) (hist : List String) : List String :=
  if hist.contains h then hist else h :: hist

/-- Whether the wallet stored under a key has the hash in its history. -/
def histContains (ws : WorldState) (key h : String) : Bool :=
  match lookupWallet ws.wallets key with
  | some w => w.history.contains h
  | none => false

/-- Whether some wallet has the hash in its history, the "already
known/applied" test for parent references. -/
def knownHash (ws : WorldState) (h : String) : Bool :=
  ws.wallets.any (fun p => p.2.history.contains h)

/-- The rejection reasons of WorldState application, from §4.5 and §7 of
the specification. -/
inductive ApplyError where
  | invalidSignature
  | duplicateTransaction
  | insufficientFunds
  | unknownParent
deriving Repr, DecidableEq

/-- Modelled from the spec: WorldState.apply is described in §4.5 of the
specification but absent from src/main.rs, which only declares the
WorldState struct. Checks in the specified order: (1) the signature must
verify, (2) the content hash must not already be in the sender or
receiver history, (3) the sender wallet must exist with balance at least
amount, (4) every parent hash must already be known, then (5) debit the
sender, credit the receiver (creating it with zero balance if new), and
record the hash in both histories, atomically. -/
def WorldState.apply (sig : Sig) (blake3 : List Nat → List Nat)
    (ws : WorldState) (s : SignedTransaction) : Except ApplyError WorldState :=
  if s.verify sig ≠ some true then .error .invalidSignature
  else
    let h := SignedTransaction.hash blake3 s
    let sender := s.transaction.sender
    let receiver := s.transaction.receiver
    if histContains ws sender h ∨ histContains ws receiver h then
      .error .duplicateTransaction
    else
      match lookupWallet ws.wallets sender with
      | none => .error .insufficientFunds
      | some sw =>
        if sw.balance < s.transaction.amount then .error .insufficientFunds
        else if ¬ s.transaction.parents.all (knownHash ws) then .error .unknownParent
        else
          let ws1 := setWallet ws.wallets sender
            ⟨sw.balance - s.transaction.amount, insertHash h sw.history⟩
          let rw := (lookupWallet ws1 receiver).getD ⟨0, []⟩
          .ok ⟨setWallet ws1 receiver
            ⟨rw.balance + s.transaction.amount, insertHash h rw.history⟩⟩

/-- Fold a sequence of transactions through WorldState.apply; a rejected
transaction leaves the state unchanged (apply is all-or-nothing, §7). -/
def applyAll (sig : Sig) (blake3 : List Nat → List Nat)
    (ws : WorldState) : List SignedTransaction → WorldState
  | [] => ws
  | t :: ts =>
    match ws.apply sig blake3 t with
    | .ok ws1 => applyAll sig blake3 ws1 ts
    | .error _ => applyAll sig blake3 ws ts

/-- Sum of the balances of a wallet list. -/
def sumB (l : List (String × Wallet)) : Nat :=
  (l.map (fun p => p.2.balance)).sum

/-- Sum of all wallet balances of a WorldState. -/
def sumBalances (ws : WorldState) : Nat := sumB ws.wallets

/-- Consume an expected literal prefix of the input. -/
def parseLit : List Char → List Char → Option (List Char)
  | [], input => some input
  | _ :: _, [] => none
  | c :: cs, d :: input => if c = d then parseLit cs input else none

/-- Value of a hexadecimal digit character. -/
def hexVal (c : Char) : Option Nat :=
  if '0' ≤ c ∧ c ≤ '9' then some (c.toNat - 48)
  else if 'a' ≤ c ∧ c ≤ 'f' then some (c.toNat - 97 + 10)
  else if 'A' ≤ c ∧ c ≤ 'F' then some (c.toNat - 65 + 10)
  else none

/-- Parse the body of a JSON string up to and including the closing
quote, undoing the serde_json escapes, and return the decoded characters
together with the rest of the input; the fuel bounds the number of
decoded characters and never runs out when it is at least the input
length. -/
def parseStringBody : Nat → List Char → Option (List Char × List Char)
  | 0, _ => none
  | fuel + 1, l =>
    match l with
    | [] => none
    | c :: rest =>
      if c = '"' then some ([], rest)
      else if c = '\\' then
        match rest with
        | [] => none
        | e :: rest2 =>
          if e = '"' then (parseStringBody fuel rest2).map (fun p => ('"' :: p.1, p.2))
          else if e = '\\' then (parseStringBody fuel rest2).map (fun p => ('\\' :: p.1, p.2))
          else if e = 'b' then (parseStringBody fuel rest2).map (fun p => (Char.ofNat 8 :: p.1, p.2))
          else if e = 't' then (parseStringBody fuel rest2).map (fun p => (Char.ofNat 9 :: p.1, p.2))
          else if e = 'n' then (parseStringBody fuel rest2).map (fun p => (Char.ofNat 10 :: p.1, p.2))
          else if e = 'f' then (parseStringBody fuel rest2).map (fun p => (Char.ofNat 12 :: p.1, p.2))
          else if e = 'r' then (parseStringBody fuel rest2).map (fun p => (Char.ofNat 13 :: p.1, p.2))
          else if e = 'u' then
            match rest2 with
            | h1 :: h2 :: h3 :: h4 :: rest3 =>
              match hexVal h1, hexVal h2, hexVal h3, hexVal h4 with
              | some a, some b, some c2, some d =>
                (parseStringBody fuel rest3).map
                  (fun p => (Char.ofNat (((a * 16 + b) * 16 + c2) * 16 + d) :: p.1, p.2))
              | _, _, _, _ => none
            | _ => none
          else none
      else (parseStringBody fuel rest).map (fun p => (c :: p.1, p.2))

/-- Parse a complete JSON string value, opening quote included. -/
def parseJsonString (l : List Char) : Option (String × List Char) :=
  match l with
  | '"' :: rest => (parseStringBody rest.length rest).map (fun p => (String.mk p.1, p.2))
  | _ => none

/-- Split the longest decimal-digit run off the front of the input. -/
def takeDigits : List Char → List Char × List Char
  | [] => ([], [])
  | c :: rest =>
    if c.isDigit then
      let p := takeDigits rest
      (c :: p.1, p.2)
    else ([], c :: rest)

/-- Numeric value of a digit run, most significant digit first. -/
def digitsVal (l : List Char) : Nat :=
  l.foldl (fun a c => a * 10 + (c.toNat - 48)) 0

/-- Parse a non-empty decimal number. -/
def parseNat (l : List Char) : Option (Nat × List Char) :=
  match takeDigits l with
  | ([], _) => none
  | (ds, r) => some (digitsVal ds, r)

/-- Parse one or more comma-separated JSON strings followed by the
closing bracket; the fuel bounds the number of elements. -/
def parseStrList1 : Nat → List Char → Option (List String × List Char)
  | 0, _ => none
  | fuel + 1, l =>
    match parseJsonString l with
    | none => none
    | some (s, r) =>
      match r with
      | ']' :: r2 => some ([s], r2)
      | ',' :: r2 => (parseStrList1 fuel r2).map (fun p => (s :: p.1, p.2))
      | _ => none

/-- Parse the element list of a JSON string array, closing bracket
included (the opening bracket is consumed by the caller). -/
def parseStrList (l : List Char) : Option (List String × List Char) :=
  if l.head? = some ']' then some ([], l.tail)
  else parseStrList1 l.length l

/-- Parse the canonical serialization of a Transaction payload. -/
def parseTransaction (l : List Char) : Option (Transaction × List Char) :=
  (parseLit (lit ("\x7b\"parents\":[")) l).bind fun l1 =>
  (parseStrList l1).bind fun p1 =>
  (parseLit (lit (",\"sender\":")) p1.2).bind fun l2 =>
  (parseJsonString l2).bind fun p2 =>
  (parseLit (lit (",\"timestamp\":")) p2.2).bind fun l3 =>
  (parseNat l3).bind fun p3 =>
  (parseLit (',' :: lit ("\"amount\":")) p3.2).bind fun l4 =>
  (parseNat l4).bind fun p4 =>
  (parseLit (',' :: lit ("\"receiver\":")) p4.2).bind fun l5 =>
  (parseJsonString l5).bind fun p5 =>
  (parseLit (lit ("\x7d")) p5.2).map fun l6 =>
  (⟨p1.1, p2.1, p3.1, p4.1, p5.1⟩, l6)

/-- Parse the canonical serialization of a SignedTransaction. -/
def parseSignedTransaction (l : List Char) : Option (SignedTransaction × List Char) :=
  (parseLit (lit ("\x7b\"transaction\":")) l).bind fun l1 =>
  (parseTransaction l1).bind fun p1 =>
  (parseLit (lit (",\"signature\":")) p1.2).bind fun l2 =>
  (parseJsonString l2).bind fun p2 =>
  (parseLit (lit ("\x7d")) p2.2).map fun l3 =>
  (⟨p1.1, p2.1⟩, l3)

/-- serde_json::from_str for SignedTransaction restricted to the
canonical format emitted by serde_json::to_string: the whole input must
be consumed. -/
def decodeSignedTransaction (s : String) : Option SignedTransaction :=
  match parseSignedTransaction s.data with
  | some (st, []) => some st
  | _ => none

/-- Canonical serialization of a SignedTransaction as a string. -/
def encodeSignedTransaction (s : SignedTransaction) : String :=
  String.mk (encodeSignedTransactionChars s)

/-- The input does not start with a decimal digit. -/
def headNotDigit (l : List Char) : Prop :=
  ∀ c, l.head? = some c → c.isDigit = false

/-- A concrete signature scheme instance used to evaluate the theorems:
signing appends the secret key to the message, parsing accepts any
bytes, and verification always succeeds. -/
def sigAccept : Sig :=
  ⟨fun m sk => some (m ++ sk), fun b => some b, fun b => some b, fun _ _ _ => true⟩

/-- A concrete signature scheme instance whose signing operation fails. -/
def sigFail : Sig :=
  ⟨fun _ _ => none, fun b => some b, fun b => some b, fun _ _ _ => true⟩

/-- A concrete digest function used to evaluate the theorems. -/
def blakeConst : List Nat → List Nat := fun _ => [0]

/-- A concrete transaction used to evaluate the theorems. -/
def txW : Transaction := ⟨[], "", 0, 0, ""⟩

/-- The signed transaction that sigAccept produces for txW with the
empty secret key. -/
def stxW : SignedTransaction :=
  ⟨txW, String.mk (base64EncodeChars (utf8Bytes (encodeTransactionChars txW) ++ []))⟩

/-- A signed transaction whose sender field is not valid base64. -/
def badSender : SignedTransaction := ⟨⟨[], "#", 0, 0, ""⟩, ""⟩

/-! ### Parser round-trip lemmas -/

theorem parseLit_append (l r : List Char) : parseLit l (l ++ r) = some r := by
  induction l with
  | nil => rfl
  | cons c cs ih => simp [parseLit, ih]

theorem hexVal_hexDig : ∀ d, d < 16 → hexVal (hexDig d) = some d := by decide

theorem parseStringBody_escapeChar (c : Char) (r : List Char) (fuel : Nat) :
    parseStringBody (fuel + 1) (escapeChar c ++ r) =
      (parseStringBody fuel r).map (fun p => (c :: p.1, p.2)) := by
  by_cases hq : c = '"'
  · subst hq; rfl
  · by_cases hb : c = '\\'
    · subst hb; rfl
    · by_cases hc : c.toNat < 32
      · have hofn : Char.ofNat c.toNat = c := Char.ofNat_toNat c
        by_cases h8 : c.toNat = 8
        · have h1 : escapeChar c = ['\\', 'b'] := by
            simp [escapeChar, hq, hb, hc, h8]
          have h2 : parseStringBody (fuel + 1) (['\\', 'b'] ++ r) =
              (parseStringBody fuel r).map (fun p => (Char.ofNat 8 :: p.1, p.2)) := rfl
          rw [h1, h2, ← h8, hofn]
        · by_cases h9 : c.toNat = 9
          · have h1 : escapeChar c = ['\\', 't'] := by
              simp [escapeChar, hq, hb, hc, h8, h9]
            have h2 : parseStringBody (fuel + 1) (['\\', 't'] ++ r) =
                (parseStringBody fuel r).map (fun p => (Char.ofNat 9 :: p.1, p.2)) := rfl
            rw [h1, h2, ← h9, hofn]
          · by_cases h10 : c.toNat = 10
            · have h1 : escapeChar c = ['\\', 'n'] := by
                simp [escapeChar, hq, hb, hc, h8, h9, h10]
              have h2 : parseStringBody (fuel + 1) (['\\', 'n'] ++ r) =
                  (parseStringBody fuel r).map (fun p => (Char.ofNat 10 :: p.1, p.2)) := rfl
              rw [h1, h2, ← h10, hofn]
            · by_cases h12 : c.toNat = 12
              · have h1 : escapeChar c = ['\\', 'f'] := by
                  simp [escapeChar, hq, hb, hc, h8, h9, h10, h12]
                have h2 : parseStringBody (fuel + 1) (['\\', 'f'] ++ r) =
                    (parseStringBody fuel r).map (fun p => (Char.ofNat 12 :: p.1, p.2)) := rfl
                rw [h1, h2, ← h12, hofn]
              · by_cases h13 : c.toNat = 13
                · have h1 : escapeChar c = ['\\', 'r'] := by
                    simp [escapeChar, hq, hb, hc, h8, h9, h10, h12, h13]
                  have h2 : parseStringBody (fuel + 1) (['\\', 'r'] ++ r) =
                      (parseStringBody fuel r).map (fun p => (Char.ofNat 13 :: p.1, p.2)) := rfl
                  rw [h1, h2, ← h13, hofn]
                · have h1 : escapeChar c =
                      ['\\', 'u', '0', '0', hexDig (c.toNat / 16), hexDig (c.toNat % 16)] := by
                    simp [escapeChar, hq, hb, hc, h8, h9, h10, h12, h13]
                  have e1 : hexVal (hexDig (c.toNat / 16)) = some (c.toNat / 16) :=
                    hexVal_hexDig _ (by omega)
                  have e2 : hexVal (hexDig (c.toNat % 16)) = some (c.toNat % 16) :=
                    hexVal_hexDig _ (by omega)
                  have hv0 : hexVal '0' = some 0 := rfl
                  rw [h1]
                  simp [parseStringBody, e1, e2, hv0]
                  have harith : (c.toNat / 16 * 16 + c.toNat % 16) = c.toNat := by omega
                  rw [harith, hofn]
      · have h1 : escapeChar c = [c] := by
          simp [escapeChar, hq, hb, hc]
        rw [h1]
        simp [parseStringBody, hq, hb]

theorem parseStringBody_escaped (cs : List Char) (r : List Char) (m : Nat) :
    parseStringBody (cs.length + m + 1) (escapeString cs ++ ('"' :: r)) = some (cs, r) := by
  induction cs generalizing m with
  | nil => rfl
  | cons c cs ih =>
    have hl : escapeString (c :: cs) = escapeChar c ++ escapeString cs := by
      simp [escapeString]
    have hf : (c :: cs).length + m + 1 = (cs.length + m + 1) + 1 := by
      simp; omega
    rw [hl, hf, List.append_assoc, parseStringBody_escapeChar, ih]
    rfl

theorem escapeChar_length_pos (c : Char) : 1 ≤ (escapeChar c).length := by
  unfold escapeChar
  repeat' split
  all_goals simp

theorem escapeString_length_ge (cs : List Char) : cs.length ≤ (escapeString cs).length := by
  induction cs with
  | nil => simp [escapeString]
  | cons c cs ih =>
    have h1 := escapeChar_length_pos c
    simp only [escapeString, List.map_cons, List.flatten_cons, List.length_append,
      List.length_cons] at *
    omega

theorem parseJsonString_encStr (s : String) (r : List Char) :
    parseJsonString (encStr s ++ r) = some (s, r) := by
  have h1 : encStr s ++ r = '"' :: (escapeString s.data ++ ('"' :: r)) := by
    simp [encStr]
  have h2 : parseJsonString ('"' :: (escapeString s.data ++ ('"' :: r))) =
      (parseStringBody (escapeString s.data ++ ('"' :: r)).length
        (escapeString s.data ++ ('"' :: r))).map (fun p => (String.mk p.1, p.2)) := rfl
  have hlen : (escapeString s.data ++ ('"' :: r)).length =
      s.data.length + ((escapeString s.data).length - s.data.length + r.length) + 1 := by
    have h3 := escapeString_length_ge s.data
    simp only [List.length_append, List.length_cons]
    omega
  rw [h1, h2, hlen, parseStringBody_escaped]
  rfl

/-! ### Number round-trip lemmas -/

theorem digitChar_isDigit : ∀ d, d < 10 → (digitChar d).isDigit = true := by decide

theorem digitChar_toNat : ∀ d, d < 10 → (digitChar d).toNat = 48 + d := by decide

theorem natCharsAux_irrel : ∀ (n f1 f2 : Nat), n < f1 → n < f2 →
    natCharsAux f1 n = natCharsAux f2 n := by
  intro n
  induction n using Nat.strong_induction_on with
  | _ n ih =>
    intro f1 f2 h1 h2
    cases f1 with
    | zero => omega
    | succ g1 =>
      cases f2 with
      | zero => omega
      | succ g2 =>
        simp only [natCharsAux]
        by_cases h : n < 10
        · simp [h]
        · simp only [if_neg h]
          rw [ih (n / 10) (Nat.div_lt_self (by omega) (by omega)) g1 g2
            (by omega) (by omega)]

theorem natChars_eq (n : Nat) : natChars n =
    if n < 10 then [digitChar n] else natChars (n / 10) ++ [digitChar (n % 10)] := by
  show natCharsAux (n + 1) n = _
  simp only [natCharsAux]
  by_cases h : n < 10
  · simp [h]
  · simp only [if_neg h]
    rw [natCharsAux_irrel (n / 10) n (n / 10 + 1) (by omega) (by omega)]
    rfl

theorem natChars_digits (n : Nat) : ∀ c ∈ natChars n, c.isDigit = true := by
  induction n using Nat.strong_induction_on with
  | _ n ih =>
    rw [natChars_eq]
    by_cases h : n < 10
    · simp [h]
      exact digitChar_isDigit n h
    · simp [h]
      intro c hc
      rcases hc with hc | hc
      · exact ih (n / 10) (Nat.div_lt_self (by omega) (by omega)) c hc
      · rw [hc]
        exact digitChar_isDigit _ (by omega)

theorem digitsVal_append_single (xs : List Char) (c : Char) :
    digitsVal (xs ++ [c]) = digitsVal xs * 10 + (c.toNat - 48) := by
  simp [digitsVal, List.foldl_append]

theorem digitsVal_natChars (n : Nat) : digitsVal (natChars n) = n := by
  induction n using Nat.strong_induction_on with
  | _ n ih =>
    rw [natChars_eq]
    by_cases h : n < 10
    · simp [h, digitsVal]
      have h1 := digitChar_toNat n h
      omega
    · rw [if_neg h, digitsVal_append_single,
        ih (n / 10) (Nat.div_lt_self (by omega) (by omega)),
        digitChar_toNat _ (by omega)]
      omega

theorem natChars_ne_nil (n : Nat) : natChars n ≠ [] := by
  rw [natChars_eq]
  split <;> simp

theorem takeDigits_append (ds r : List Char) (hds : ∀ c ∈ ds, c.isDigit = true)
    (hr : headNotDigit r) : takeDigits (ds ++ r) = (ds, r) := by
  induction ds with
  | nil =>
    cases r with
    | nil => rfl
    | cons c t => simp [takeDigits, hr c rfl]
  | cons c t ih =>
    have hdig : c.isDigit = true := hds c (by simp)
    have ihr : takeDigits (t ++ r) = (t, r) := ih (fun x hx => hds x (by simp [hx]))
    simp [takeDigits, hdig, ihr]

theorem headNotDigit_comma (x : List Char) : headNotDigit (',' :: x) := by
  intro c hc
  simp at hc
  rw [← hc]
  rfl

theorem parseNat_natChars (n : Nat) (r : List Char) (hr : headNotDigit r) :
    parseNat (natChars n ++ r) = some (n, r) := by
  have htd : takeDigits (natChars n ++ r) = (natChars n, r) :=
    takeDigits_append _ _ (natChars_digits n) hr
  obtain ⟨d, ds, hds⟩ := List.exists_cons_of_ne_nil (natChars_ne_nil n)
  unfold parseNat
  rw [htd, hds]
  show some (digitsVal (d :: ds), r) = some (n, r)
  rw [← hds, digitsVal_natChars]

theorem parseNat_natChars_comma (n : Nat) (x : List Char) :
    parseNat (natChars n ++ (',' :: x)) = some (n, ',' :: x) :=
  parseNat_natChars n _ (headNotDigit_comma x)

theorem parseLit_cons_append (c : Char) (l r : List Char) :
    parseLit (c :: l) (c :: (l ++ r)) = some r := by
  simp [parseLit, parseLit_append]

/-! ### Array round-trip lemmas -/

theorem encStrListItems_cons (s : String) (rest : List String) :
    ∃ y, encStrListItems (s :: rest) = '"' :: y := by
  cases rest
  · exact ⟨_, rfl⟩
  · exact ⟨_, rfl⟩

theorem encStrListItems_length (ps : List String) :
    ps.length ≤ (encStrListItems ps).length := by
  induction ps with
  | nil => simp [encStrListItems]
  | cons s rest ih =>
    have h1 : 1 ≤ (encStr s).length := by
      simp [encStr]
    cases rest with
    | nil =>
      simp only [encStrListItems, List.length_cons, List.length_nil]
      omega
    | cons b t =>
      simp only [encStrListItems, List.length_append, List.length_cons] at *
      omega

theorem parseStrList1_items : ∀ (ps : List String) (r : List Char) (fuel : Nat),
    ps ≠ [] → ps.length ≤ fuel →
    parseStrList1 fuel (encStrListItems ps ++ (']' :: r)) = some (ps, r) := by
  intro ps
  induction ps with
  | nil => intro r fuel h _; exact absurd rfl h
  | cons s rest ih =>
    intro r fuel _ hlen
    cases fuel with
    | zero => simp at hlen
    | succ m =>
      cases rest with
      | nil =>
        show parseStrList1 (m + 1) (encStr s ++ (']' :: r)) = some ([s], r)
        simp [parseStrList1, parseJsonString_encStr]
      | cons b t =>
        have hshape : encStrListItems (s :: b :: t) ++ (']' :: r) =
            encStr s ++ (',' :: (encStrListItems (b :: t) ++ (']' :: r))) := by
          simp [encStrListItems]
        rw [hshape]
        have hrec : parseStrList1 m (encStrListItems (b :: t) ++ (']' :: r)) =
            some (b :: t, r) := by
          apply ih r m (by simp)
          simp only [List.length_cons] at hlen ⊢
          omega
        simp [parseStrList1, parseJsonString_encStr, hrec]

theorem parseStrList_items (ps : List String) (r : List Char) :
    parseStrList (encStrListItems ps ++ (']' :: r)) = some (ps, r) := by
  cases ps with
  | nil => rfl
  | cons s rest =>
    obtain ⟨y, hy⟩ := encStrListItems_cons s rest
    have hhead : (encStrListItems (s :: rest) ++ (']' :: r)).head? = some '"' := by
      rw [hy]; rfl
    unfold parseStrList
    rw [hhead, if_neg (by simp)]
    apply parseStrList1_items
    · simp
    · have h1 := encStrListItems_length (s :: rest)
      simp only [List.length_append, List.length_cons] at *
      omega

/-! ### Transaction and SignedTransaction round-trips -/

theorem parseTransaction_encode (t : Transaction) (r : List Char) :
    parseTransaction (encodeTransactionChars t ++ r) = some (t, r) := by
  obtain ⟨ps, snd, ts, am, rcv⟩ := t
  simp only [encodeTransactionChars, parseTransaction, List.append_assoc, List.cons_append]
  rw [parseLit_append]
  simp only [Option.some_bind]
  rw [parseStrList_items]
  simp only [Option.some_bind]
  rw [parseLit_append]
  simp only [Option.some_bind]
  rw [parseJsonString_encStr]
  simp only [Option.some_bind]
  rw [parseLit_append]
  simp only [Option.some_bind]
  rw [parseNat_natChars_comma]
  simp only [Option.some_bind]
  rw [parseLit_cons_append]
  simp only [Option.some_bind]
  rw [parseNat_natChars_comma]
  simp only [Option.some_bind]
  rw [parseLit_cons_append]
  simp only [Option.some_bind]
  rw [parseJsonString_encStr]
  simp only [Option.some_bind]
  rw [parseLit_append]
  rfl

theorem parseSignedTransaction_encode (s : SignedTransaction) (r : List Char) :
    parseSignedTransaction (encodeSignedTransactionChars s ++ r) = some (s, r) := by
  obtain ⟨t, sg⟩ := s
  simp only [encodeSignedTransactionChars, parseSignedTransaction,
    List.append_assoc, List.cons_append]
  rw [parseLit_append]
  simp only [Option.some_bind]
  rw [parseTransaction_encode]
  simp only [Option.some_bind]
  rw [parseLit_append]
  simp only [Option.some_bind]
  rw [parseJsonString_encStr]
  simp only [Option.some_bind]
  rw [parseLit_append]
  rfl

theorem decodeSigned_encode (s : SignedTransaction) :
    decodeSignedTransaction (encodeSignedTransaction s) = some s := by
  have h1 : parseSignedTransaction (encodeSignedTransactionChars s) = some (s, []) := by
    have h2 := parseSignedTransaction_encode s []
    rw [List.append_nil] at h2
    exact h2
  unfold decodeSignedTransaction encodeSignedTransaction
  rw [show (String.mk (encodeSignedTransactionChars s)).data
    = encodeSignedTransactionChars s from rfl]
  rw [h1]

theorem encodeTransactionChars_inj (t1 t2 : Transaction)
    (h : encodeTransactionChars t1 = encodeTransactionChars t2) : t1 = t2 := by
  have h1 := parseTransaction_encode t1 []
  have h2 := parseTransaction_encode t2 []
  rw [h] at h1
  rw [h1] at h2
  simpa using h2

theorem encodeSignedTransactionChars_inj (s1 s2 : SignedTransaction)
    (h : encodeSignedTransactionChars s1 = encodeSignedTransactionChars s2) : s1 = s2 := by
  have h1 := parseSignedTransaction_encode s1 []
  have h2 := parseSignedTransaction_encode s2 []
  rw [h] at h1
  rw [h1] at h2
  simpa using h2

/-! ### WorldState conservation -/

theorem sumB_cons (k : String) (w : Wallet) (rest : List (String × Wallet)) :
    sumB ((k, w) :: rest) = w.balance + sumB rest := by
  simp [sumB]

theorem sumB_setWallet (l : List (String × Wallet)) (k : String) (w : Wallet) :
    sumB (setWallet l k w) + ((lookupWallet l k).map Wallet.balance).getD 0
      = sumB l + w.balance := by
  induction l with
  | nil => simp [setWallet, lookupWallet, sumB]
  | cons p rest ih =>
    obtain ⟨k0, w0⟩ := p
    by_cases hk : k0 = k
    · subst hk
      simp [setWallet, lookupWallet, sumB_cons]
      omega
    · simp only [setWallet, lookupWallet, hk, if_false, ite_false, sumB_cons]
      omega

theorem lookupWallet_balance_le (l : List (String × Wallet)) (k : String) (w : Wallet)
    (h : lookupWallet l k = some w) : w.balance ≤ sumB l := by
  induction l with
  | nil => simp [lookupWallet] at h
  | cons p rest ih =>
    obtain ⟨k0, w0⟩ := p
    rw [sumB_cons]
    by_cases hk : k0 = k
    · subst hk
      rw [lookupWallet, if_pos rfl] at h
      injection h with hw
      subst hw
      omega
    · rw [lookupWallet, if_neg hk] at h
      have h1 := ih h
      omega

theorem apply_ok_conserves (sig : Sig) (blake3 : List Nat → List Nat)
    (ws ws1 : WorldState) (s : SignedTransaction)
    (h : ws.apply sig blake3 s = .ok ws1) : sumBalances ws1 = sumBalances ws := by
  unfold WorldState.apply at h
  by_cases hver : s.verify sig ≠ some true
  · rw [if_pos hver] at h
    exact absurd h (by simp)
  · rw [if_neg hver] at h
    simp only [] at h
    by_cases hdup : histContains ws s.transaction.sender (SignedTransaction.hash blake3 s) = true
        ∨ histContains ws s.transaction.receiver (SignedTransaction.hash blake3 s) = true
    · rw [if_pos hdup] at h
      exact absurd h (by simp)
    · rw [if_neg hdup] at h
      rcases hlook : lookupWallet ws.wallets s.transaction.sender with _ | sw
      · rw [hlook] at h
        exact absurd h (by simp)
      · rw [hlook] at h
        simp only [] at h
        by_cases hbal : sw.balance < s.transaction.amount
        · rw [if_pos hbal] at h
          exact absurd h (by simp)
        · rw [if_neg hbal] at h
          by_cases hpar : ¬ s.transaction.parents.all (knownHash ws) = true
          · rw [if_pos hpar] at h
            exact absurd h (by simp)
          · rw [if_neg hpar] at h
            injection h with hws
            subst hws
            have E1 := sumB_setWallet ws.wallets s.transaction.sender
              ⟨sw.balance - s.transaction.amount,
                insertHash (SignedTransaction.hash blake3 s) sw.history⟩
            rw [hlook] at E1
            have hle := lookupWallet_balance_le ws.wallets s.transaction.sender sw hlook
            simp only [Option.map_some', Option.getD_some] at E1
            rcases hlr : lookupWallet
                (setWallet ws.wallets s.transaction.sender
                  ⟨sw.balance - s.transaction.amount,
                    insertHash (SignedTransaction.hash blake3 s) sw.history⟩)
                s.transaction.receiver with _ | rw0
            · have E2 := sumB_setWallet
                (setWallet ws.wallets s.transaction.sender
                  ⟨sw.balance - s.transaction.amount,
                    insertHash (SignedTransaction.hash blake3 s) sw.history⟩)
                s.transaction.receiver
                ⟨((lookupWallet
                    (setWallet ws.wallets s.transaction.sender
                      ⟨sw.balance - s.transaction.amount,
                        insertHash (SignedTransaction.hash blake3 s) sw.history⟩)
                    s.transaction.receiver).getD ⟨0, []⟩).balance + s.transaction.amount,
                  insertHash (SignedTransaction.hash blake3 s)
                    ((lookupWallet
                      (setWallet ws.wallets s.transaction.sender
                        ⟨sw.balance - s.transaction.amount,
                          insertHash (SignedTransaction.hash blake3 s) sw.history⟩)
                      s.transaction.receiver).getD ⟨0, []⟩).history⟩
              rw [hlr] at E2
              simp only [hlr, Option.map_none', Option.getD_none, sumBalances] at E2 ⊢
              omega
            · have E2 := sumB_setWallet
                (setWallet ws.wallets s.transaction.sender
                  ⟨sw.balance - s.transaction.amount,
                    insertHash (SignedTransaction.hash blake3 s) sw.history⟩)
                s.transaction.receiver
                ⟨((lookupWallet
                    (setWallet ws.wallets s.transaction.sender
                      ⟨sw.balance - s.transaction.amount,
                        insertHash (SignedTransaction.hash blake3 s) sw.history⟩)
                    s.transaction.receiver).getD ⟨0, []⟩).balance + s.transaction.amount,
                  insertHash (SignedTransaction.hash blake3 s)
                    ((lookupWallet
                      (setWallet ws.wallets s.transaction.sender
                        ⟨sw.balance - s.transaction.amount,
                          insertHash (SignedTransaction.hash blake3 s) sw.history⟩)
                      s.transaction.receiver).getD ⟨0, []⟩).history⟩
              rw [hlr] at E2
              simp only [hlr, Option.map_some', Option.getD_some, sumBalances] at E2 ⊢
              omega

theorem applyAll_conserves (sig : Sig) (blake3 : List Nat → List Nat)
    (txs : List SignedTransaction) (ws : WorldState) :
    sumBalances (applyAll sig blake3 ws txs) = sumBalances ws := by
  induction txs generalizing ws with
  | nil => rfl
  | cons t ts ih =>
    unfold applyAll
    rcases happ : ws.apply sig blake3 t with e | ws2
    · exact ih ws
    · exact (ih ws2).trans (apply_ok_conserves sig blake3 ws ws2 t happ)

/-! ### The claims -/

/-- Claim C1: the signature in a SignedTransaction covers exactly the
canonical encoding of the embedded Transaction payload alone and never
the signature itself: Transaction::sign passes the serialization of the
payload (before any signature exists) to the signer, and
SignedTransaction::verify checks the signature against the serialization
of the embedded transaction only, never against the serialization of the
signed transaction. -/
theorem sign_and_verify_cover_payload_only :
    (∀ (sig : Sig) (sk : List Nat) (t : Transaction) (st : SignedTransaction),
      t.sign sig sk = some st →
        ∃ raw, sig.signBytes (utf8Bytes (encodeTransactionChars t)) sk = some raw ∧
          st = ⟨t, String.mk (base64EncodeChars raw)⟩)
    ∧ (∀ (sig : Sig) (s : SignedTransaction) (b : Bool),
      s.verify sig = some b →
        ∃ pkBytes pk sgBytes sg,
          base64DecodeChars s.transaction.sender.data = some pkBytes ∧
          sig.publicKeyFromBytes pkBytes = some pk ∧
          base64DecodeChars s.signature.data = some sgBytes ∧
          sig.signatureFromBytes sgBytes = some sg ∧
          b = sig.verifyBytes (utf8Bytes (encodeTransactionChars s.transaction)) sg pk) := by
  constructor
  · intro sig sk t st h
    unfold Transaction.sign at h
    rcases hsb : sig.signBytes (utf8Bytes (encodeTransactionChars t)) sk with _ | raw
    · rw [hsb] at h
      exact absurd h (by simp)
    · rw [hsb] at h
      simp only [] at h
      refine ⟨raw, rfl, ?_⟩
      injection h with h1
      exact h1.symm
  · intro sig s b h
    unfold SignedTransaction.verify at h
    rcases h1 : base64DecodeChars s.transaction.sender.data with _ | pkB
    · rw [h1] at h
      exact absurd h (by simp)
    · rw [h1] at h
      simp only [] at h
      rcases h2 : sig.publicKeyFromBytes pkB with _ | pk
      · rw [h2] at h
        exact absurd h (by simp)
      · rw [h2] at h
        simp only [] at h
        rcases h3 : base64DecodeChars s.signature.data with _ | sgB
        · rw [h3] at h
          exact absurd h (by simp)
        · rw [h3] at h
          simp only [] at h
          rcases h4 : sig.signatureFromBytes sgB with _ | sg
          · rw [h4] at h
            exact absurd h (by simp)
          · rw [h4] at h
            simp only [] at h
            injection h with h5
            exact ⟨pkB, pk, sgB, sg, rfl, h2, rfl, h4, h5.symm⟩

/-- Witness for C1 at a concrete scheme, key and transaction. -/
theorem sign_and_verify_cover_payload_only_witness :
    (∃ raw, sigAccept.signBytes (utf8Bytes (encodeTransactionChars txW)) [] = some raw ∧
      stxW = ⟨txW, String.mk (base64EncodeChars raw)⟩)
    ∧ (∃ pkBytes pk sgBytes sg,
        base64DecodeChars stxW.transaction.sender.data = some pkBytes ∧
        sigAccept.publicKeyFromBytes pkBytes = some pk ∧
        base64DecodeChars stxW.signature.data = some sgBytes ∧
        sigAccept.signatureFromBytes sgBytes = some sg ∧
        true = sigAccept.verifyBytes
          (utf8Bytes (encodeTransactionChars stxW.transaction)) sg pk) :=
  ⟨sign_and_verify_cover_payload_only.1 sigAccept [] txW stxW (by rfl),
   sign_and_verify_cover_payload_only.2 sigAccept stxW true (by rfl)⟩

/-- Claim C2: SignedTransaction::hash returns the base64 encoding of the
blake3 digest of the canonical serialization of the entire
SignedTransaction; that serialization covers both the payload and the
signature, witnessed by its injectivity on the whole record. -/
theorem hash_digests_entire_signed_transaction :
    (∀ (blake3 : List Nat → List Nat) (s : SignedTransaction),
      SignedTransaction.hash blake3 s =
        String.mk (base64EncodeChars (blake3 (utf8Bytes (encodeSignedTransactionChars s)))))
    ∧ (∀ s1 s2 : SignedTransaction,
        encodeSignedTransactionChars s1 = encodeSignedTransactionChars s2 → s1 = s2) :=
  ⟨fun _ _ => rfl, encodeSignedTransactionChars_inj⟩

/-- Witness for C2 at a concrete digest and signed transaction. -/
theorem hash_digests_entire_signed_transaction_witness :
    SignedTransaction.hash blakeConst stxW =
      String.mk (base64EncodeChars (blakeConst (utf8Bytes (encodeSignedTransactionChars stxW))))
    ∧ stxW = stxW :=
  ⟨hash_digests_entire_signed_transaction.1 blakeConst stxW,
   hash_digests_entire_signed_transaction.2 stxW stxW rfl⟩

/-- Counterexample to claim C3 as stated: on a SignedTransaction whose
sender is not valid base64, SignedTransaction::verify does not return a
boolean at all — the unwrap on the failed decode panics (modelled as
none) instead of returning false. -/
theorem verify_malformed_counterexample :
    SignedTransaction.verify badSender sigAccept = none ∧
      ∀ b : Bool, SignedTransaction.verify badSender sigAccept ≠ some b := by
  constructor
  · rfl
  · intro b hb
    rw [show SignedTransaction.verify badSender sigAccept = none from rfl] at hb
    exact Option.noConfusion hb

/-- Claim C3 amended: verify returns a boolean (in particular false on a
genuine mismatch) exactly when the sender decodes and parses to a public
key and the signature decodes and parses; on any malformed sender or
signature encoding it panics (none) instead of returning false. -/
theorem verify_amended_total_on_decodable :
    ∀ (sig : Sig) (s : SignedTransaction),
      (((∃ pkB pk, base64DecodeChars s.transaction.sender.data = some pkB ∧
          sig.publicKeyFromBytes pkB = some pk) ∧
        (∃ sgB sg, base64DecodeChars s.signature.data = some sgB ∧
          sig.signatureFromBytes sgB = some sg)) →
        ∃ b, s.verify sig = some b)
      ∧ (¬ ((∃ pkB pk, base64DecodeChars s.transaction.sender.data = some pkB ∧
          sig.publicKeyFromBytes pkB = some pk) ∧
        (∃ sgB sg, base64DecodeChars s.signature.data = some sgB ∧
          sig.signatureFromBytes sgB = some sg)) →
        s.verify sig = none) := by
  intro sig s
  unfold SignedTransaction.verify
  rcases h1 : base64DecodeChars s.transaction.sender.data with _ | pkB
  · constructor
    · rintro ⟨⟨pkB, pk, hp1, _⟩, _⟩
      exact absurd hp1 (by simp)
    · intro _
      rfl
  · rcases h2 : sig.publicKeyFromBytes pkB with _ | pk
    · constructor
      · rintro ⟨⟨pkB1, pk1, hp1, hp2⟩, _⟩
        injection hp1 with hp1
        subst hp1
        rw [h2] at hp2
        exact absurd hp2 (by simp)
      · intro _
        simp [h2]
    · rcases h3 : base64DecodeChars s.signature.data with _ | sgB
      · constructor
        · rintro ⟨_, ⟨sgB, sg, hs1, _⟩⟩
          exact absurd hs1 (by simp)
        · intro _
          simp [h2]
      · rcases h4 : sig.signatureFromBytes sgB with _ | sg
        · constructor
          · rintro ⟨_, ⟨sgB1, sg1, hs1, hs2⟩⟩
            injection hs1 with hs1
            subst hs1
            rw [h4] at hs2
            exact absurd hs2 (by simp)
          · intro _
            simp [h2, h4]
        · constructor
          · intro _
            refine ⟨sig.verifyBytes (utf8Bytes (encodeTransactionChars s.transaction)) sg pk, ?_⟩
            simp [h2, h4]
          · intro hno
            exact absurd ⟨⟨pkB, pk, rfl, h2⟩, ⟨sgB, sg, rfl, h4⟩⟩ hno

/-- Witness for the amended C3 at a concrete well-formed input. -/
theorem verify_amended_total_on_decodable_witness :
    ∃ b, SignedTransaction.verify stxW sigAccept = some b :=
  (verify_amended_total_on_decodable sigAccept stxW).1
    ⟨⟨[], [], by rfl, by rfl⟩,
     ⟨utf8Bytes (encodeTransactionChars txW) ++ [],
      utf8Bytes (encodeTransactionChars txW) ++ [], by rfl, by rfl⟩⟩

/-- Claim C4: over any sequence of applications of the spec-modelled
WorldState.apply, the sum of all wallet balances is conserved — a
successful transfer moves value without creating or destroying it, and a
rejected transaction leaves the state unchanged. -/
theorem worldstate_conservation :
    ∀ (sig : Sig) (blake3 : List Nat → List Nat) (ws : WorldState)
      (txs : List SignedTransaction),
      sumBalances (applyAll sig blake3 ws txs) = sumBalances ws :=
  fun sig blake3 ws txs => applyAll_conserves sig blake3 txs ws

/-- Claim C5: the canonical encoding is injective on payloads — equal
serializations imply equal transactions in every field. -/
theorem canonical_encoding_injective :
    ∀ t1 t2 : Transaction,
      encodeTransactionChars t1 = encodeTransactionChars t2 → t1 = t2 :=
  encodeTransactionChars_inj

/-- Witness for C5 at a concrete transaction. -/
theorem canonical_encoding_injective_witness : txW = txW :=
  canonical_encoding_injective txW txW rfl

/-- Claim C6: Transaction::new builds the payload purely from its
arguments and the injected wall clock: parents are the content hashes of
the given signed transactions in order, sender and receiver are the
base64 encodings of the two public keys, amount is stored unchanged, and
the timestamp is the wall-clock milliseconds (the u64 cast in the source
is the identity below 2^64); no validation is performed. -/
theorem transaction_new_fields :
    ∀ (blake3 : List Nat → List Nat) (parents : List SignedTransaction)
      (pk : List Nat) (amount : Nat) (receiver : List Nat) (nowMillis : Nat),
      nowMillis < 2 ^ 64 →
      (Transaction.new blake3 parents pk amount receiver nowMillis).parents
          = parents.map (SignedTransaction.hash blake3)
        ∧ (Transaction.new blake3 parents pk amount receiver nowMillis).sender
          = String.mk (base64EncodeChars pk)
        ∧ (Transaction.new blake3 parents pk amount receiver nowMillis).timestamp
          = nowMillis
        ∧ (Transaction.new blake3 parents pk amount receiver nowMillis).amount
          = amount
        ∧ (Transaction.new blake3 parents pk amount receiver nowMillis).receiver
          = String.mk (base64EncodeChars receiver) := by
  intro blake3 parents pk amount receiver nowMillis h
  refine ⟨rfl, rfl, ?_, rfl, rfl⟩
  show nowMillis % 2 ^ 64 = nowMillis
  exact Nat.mod_eq_of_lt h

/-- Witness for C6 at concrete arguments. -/
theorem transaction_new_fields_witness :
    (Transaction.new blakeConst [] [] 5 [] 7).parents
        = ([] : List SignedTransaction).map (SignedTransaction.hash blakeConst)
      ∧ (Transaction.new blakeConst [] [] 5 [] 7).sender
        = String.mk (base64EncodeChars [])
      ∧ (Transaction.new blakeConst [] [] 5 [] 7).timestamp = 7
      ∧ (Transaction.new blakeConst [] [] 5 [] 7).amount = 5
      ∧ (Transaction.new blakeConst [] [] 5 [] 7).receiver
        = String.mk (base64EncodeChars []) :=
  transaction_new_fields blakeConst [] [] 5 [] 7 (by norm_num)

/-- Claim C7: decoding the canonical encoding of any SignedTransaction
succeeds and recovers a value equal to it in every field. -/
theorem signed_transaction_roundtrip :
    ∀ s : SignedTransaction,
      decodeSignedTransaction (encodeSignedTransaction s) = some s :=
  decodeSigned_encode

/-- Claim C8: hashing is deterministic — signed transactions with equal
payload and equal signature string hash to equal strings, and hashing
the same value twice yields the same string. -/
theorem hash_deterministic :
    (∀ (blake3 : List Nat → List Nat) (s1 s2 : SignedTransaction),
      s1.transaction = s2.transaction → s1.signature = s2.signature →
      SignedTransaction.hash blake3 s1 = SignedTransaction.hash blake3 s2)
    ∧ (∀ (blake3 : List Nat → List Nat) (s : SignedTransaction),
      SignedTransaction.hash blake3 s = SignedTransaction.hash blake3 s) := by
  constructor
  · intro blake3 s1 s2 ht hs
    obtain ⟨t1, g1⟩ := s1
    obtain ⟨t2, g2⟩ := s2
    simp only [] at ht hs
    subst ht
    subst hs
    rfl
  · intro blake3 s
    rfl

/-- Witness for C8 at a concrete digest and signed transaction. -/
theorem hash_deterministic_witness :
    SignedTransaction.hash blakeConst stxW = SignedTransaction.hash blakeConst stxW ∧
      SignedTransaction.hash blakeConst stxW = SignedTransaction.hash blakeConst stxW :=
  ⟨hash_deterministic.1 blakeConst stxW stxW rfl rfl,
   hash_deterministic.2 blakeConst stxW⟩

/-- Claim C9: signing does not alter the payload — the SignedTransaction
produced by Transaction::sign embeds the five payload fields unchanged
and only adds the signature. -/
theorem sign_preserves_payload :
    ∀ (sig : Sig) (sk : List Nat) (t : Transaction) (st : SignedTransaction),
      t.sign sig sk = some st →
        st.transaction.parents = t.parents
        ∧ st.transaction.sender = t.sender
        ∧ st.transaction.timestamp = t.timestamp
        ∧ st.transaction.amount = t.amount
        ∧ st.transaction.receiver = t.receiver := by
  intro sig sk t st h
  unfold Transaction.sign at h
  rcases hsb : sig.signBytes (utf8Bytes (encodeTransactionChars t)) sk with _ | raw
  · rw [hsb] at h
    exact absurd h (by simp)
  · rw [hsb] at h
    simp only [] at h
    injection h with h1
    rw [← h1]
    exact ⟨rfl, rfl, rfl, rfl, rfl⟩

/-- Witness for C9 at a concrete scheme, key and transaction. -/
theorem sign_preserves_payload_witness :
    stxW.transaction.parents = txW.parents
    ∧ stxW.transaction.sender = txW.sender
    ∧ stxW.transaction.timestamp = txW.timestamp
    ∧ stxW.transaction.amount = txW.amount
    ∧ stxW.transaction.receiver = txW.receiver :=
  sign_preserves_payload sigAccept [] txW stxW (by rfl)

/-- Claim C10: the canonical serialization used inside sign, hash and
verify is total — it always returns a string for every Transaction and
every SignedTransaction, so the serialization panic branch is
unreachable, and Transaction::sign can fail only through the underlying
signing operation. -/
theorem serialization_total :
    ∀ (t : Transaction) (s : SignedTransaction),
      (serdeToStringTransaction t).isSome = true
      ∧ (serdeToStringSigned s).isSome = true
      ∧ (∀ (sig : Sig) (sk : List Nat), t.sign sig sk = none →
          sig.signBytes (utf8Bytes (encodeTransactionChars t)) sk = none) := by
  intro t s
  refine ⟨rfl, rfl, ?_⟩
  intro sig sk h
  unfold Transaction.sign at h
  rcases hsb : sig.signBytes (utf8Bytes (encodeTransactionChars t)) sk with _ | raw
  · rfl
  · rw [hsb] at h
    exact absurd h (by simp)

/-- Witness for C10 at a concrete transaction and a failing signer. -/
theorem serialization_total_witness :
    (serdeToStringTransaction txW).isSome = true
    ∧ sigFail.signBytes (utf8Bytes (encodeTransactionChars txW)) [] = none :=
  ⟨(serialization_total txW stxW).1,
   (serialization_total txW stxW).2.2 sigFail [] (by rfl)⟩

end UCoin
